import Mathlib

/-!
# Verification of the ratings time-series aggregation and highlight-overlay engine

Shallow embedding of the chart-data pipeline implemented in
`src/frontend/src/components/Header.jsx` (the `RatingChart` component,
lines 162-319): period aggregation (pivoting raw `{date, team, rating}`
records into year-keyed rows), category reconciliation (inserting blank
rows for selected years missing from the data), anchor resolution for
highlight points, per-(team, year) highlight overlay construction, and
the y-axis domain computation.

Modelling conventions:
* JavaScript numbers are modelled as `ℚ` (exact rationals); a JSON `null`
  rating (the API layer in `src/frontend/src/lib/api.js` sanitises `NaN`
  payload tokens to `null`) is modelled as `none : Option ℚ`.
* A JavaScript object used as a ratings record is an association list
  `List (Team × Option ℚ)` in property-insertion order; property reads in
  the source only ever test `!= null` / `?? null` / `typeof v === "number"`,
  all of which treat an absent property and a `null` property identically,
  so `getProp` collapses both to `none`.
* `String(date).slice(0, 4)` is `String.take 4`.
* `Number(s)` on the year strings reaching the sort comparator is modelled
  by `jsNumber`: a digit-only string parses to its value (the empty string
  to `0`, as in JavaScript); any other string behaves as `NaN`, modelled
  as `none`.  The comparator `Number(a) - Number(b)` evaluates to `NaN`
  when either side is `NaN`, and the ECMAScript sort treats a `NaN`
  comparator result as `+0`; `jsCompare` returns `.eq` there.
* `Array.prototype.sort` is stable (ES2019); `sortRows` is a stable
  insertion sort, which agrees with any stable sort whenever the
  comparator is consistent.
-/

/-- Team identifiers (the `team` strings of the payload). -/
abbrev Team := String

/-- A raw rating observation as returned by `getRatingsSeries`:
`{ date, team, rating }`, where `rating` may be `null` (`none`). -/
structure Obs where
  date : String
  team : Team
  rating : Option ℚ
deriving Repr, DecidableEq

/-- A pivot row `{ date: year, TeamA: rating, ... }`: the year key plus a
JavaScript object holding one property per team written so far. -/
structure Row where
  date : String
  ratings : List (Team × Option ℚ)
deriving Repr, DecidableEq

/-- Property write `obj[team] = rating` on a ratings object: overwrite the
existing property in place, else append in insertion order. -/
def setProp : List (Team × Option ℚ) → Team → Option ℚ → List (Team × Option ℚ)
  | [], k, v => [(k, v)]
  | (k₁, v₁) :: t, k, v =>
      if k₁ = k then (k, v) :: t else (k₁, v₁) :: setProp t k v

/-- Property read `obj[team]` as observed by the source's `!= null`,
`?? null` and `typeof` tests: an absent property and a stored `null`
both read as `none`. -/
def getProp : List (Team × Option ℚ) → Team → Option ℚ
  | [], _ => none
  | (k₁, v₁) :: t, k => if k₁ = k then v₁ else getProp t k

/-- The rating a row carries for a team (`row[team]`, collapsed as above). -/
def getRow (r : Row) (t : Team) : Option ℚ :=
  getProp r.ratings t

/-- The year key of an observation: `String(date).slice(0, 4)`. -/
def yearOf (o : Obs) : String :=
  o.date.take 4

/-- Numeric value of a list of digit characters. -/
def digitsVal (l : List Char) : ℕ :=
  l.foldl (fun acc c => 10 * acc + (c.toNat - 48)) 0

/-- `Number(s)` for the year strings reaching the comparator: digit-only
strings (including the empty string, which JavaScript coerces to `0`)
parse to their value; anything else behaves as `NaN` (`none`). -/
def jsNumber (s : String) : Option ℚ :=
  if s.data.all Char.isDigit then some (digitsVal s.data) else none

/-- The sort comparator `(a, b) => Number(a.date) - Number(b.date)`:
a `NaN` difference is treated as `+0` by the ECMAScript sort. -/
def jsCompare (a b : String) : Ordering :=
  match jsNumber a, jsNumber b with
  | some x, some y => if x < y then .lt else if y < x then .gt else .eq
  | _, _ => .eq

/-- Stable insertion of a row: it goes before the first strictly greater
element, i.e. after every element comparing less-or-tied. -/
def insertRow (x : Row) : List Row → List Row
  | [] => [x]
  | e :: t => if jsCompare x.date e.date = .lt then x :: e :: t else e :: insertRow x t

/-- `array.sort((a, b) => Number(a.date) - Number(b.date))` as a stable
insertion sort. -/
def sortRows (l : List Row) : List Row :=
  l.foldl (fun acc x => insertRow x acc) []

/-- The in-place property write of one observation into the row of its
year (`pivotMap.get(year)[team] = rating`); rows of other years are left
alone. -/
def updRow (o : Obs) (r : Row) : Row :=
  if r.date = yearOf o then { r with ratings := setProp r.ratings o.team o.rating } else r

/-- One step of the pivoting loop (Header.jsx lines 239-245): extract the
year, create the row `{ date: year }` on first sight of the year, then
write `pivotMap.get(year)[team] = rating`.  The `Map` keeps rows in key
insertion order. -/
def pivotStep (rows : List Row) (o : Obs) : List Row :=
  if rows.any (fun r => r.date = yearOf o) then rows.map (updRow o)
  else rows ++ [{ date := yearOf o, ratings := setProp [] o.team o.rating }]

/-- The rows of the pivot map, in key insertion order. -/
def pivotRows (obs : List Obs) : List Row :=
  obs.foldl pivotStep []

/-- The SeriesAggregator (Header.jsx lines 238-248): pivot the raw records
by year, then sort rows by the numeric value of the year. -/
def aggregate (obs : List Obs) : List Row :=
  sortRows (pivotRows obs)

/-- The caller-owned selection: a global `selectedYear` (possibly `null`)
and a per-team mapping `selectedYearsByTeam` whose values are `null` or
arrays of years.  Years are kept already coerced by `String(_)`, and a
scalar per-team value is represented by its singleton array, which the
source treats identically (`[String(v)]`). -/
structure Selection where
  selectedYear : Option String
  selectedYearsByTeam : List (Team × Option (List String))
deriving Repr, DecidableEq

/-- Lookup `selectedYearsByTeam[team]`, distinguishing a present entry
(`some v`, where `v` may be the `null` value `none`) from an absent key. -/
def lookupEntry : List (Team × Option (List String)) → Team → Option (Option (List String))
  | [], _ => none
  | (k, v) :: t, k₀ => if k = k₀ then some v else lookupEntry t k₀

/-- JavaScript truthiness of a (year) string: only the empty string is
falsy. -/
def strTruthy (s : String) : Bool :=
  s ≠ ""

/-- Add an element to a `Set`-like deduplicated list, keeping insertion
order. -/
def addUnique (l : List String) (x : String) : List String :=
  if x ∈ l then l else l ++ [x]

/-- `selectedYearsSet` (Header.jsx lines 170-183): the global year if
truthy, then every non-null year of every per-team entry, deduplicated in
insertion order. -/
def selectedYearsSet (sel : Selection) : List String :=
  let s₀ : List String :=
    match sel.selectedYear with
    | some y => if strTruthy y then [y] else []
    | none => []
  sel.selectedYearsByTeam.foldl
    (fun acc kv =>
      match kv.2 with
      | some ys => ys.foldl addUnique acc
      | none => acc)
    s₀

/-- `yearsForTeam` (Header.jsx lines 191-198): a non-null per-team entry
wins outright; otherwise a non-null global `selectedYear` applies;
otherwise no year is highlighted for the team. -/
def yearsForTeam (sel : Selection) (team : Team) : List String :=
  match (lookupEntry sel.selectedYearsByTeam team).join with
  | some ys => ys
  | none =>
    match sel.selectedYear with
    | some y => [y]
    | none => []

/-- A blank row `{ date: y }` for a selected year missing from the data. -/
def blankRow (y : String) : Row :=
  { date := y, ratings := [] }

/-- The selected years absent from the data
(`Array.from(selectedYearsSet).filter(y => !existingYears.has(y))`). -/
def missingYears (rows : List Row) (sel : Selection) : List String :=
  (selectedYearsSet sel).filter (fun y => ¬ y ∈ rows.map (fun r => r.date))

/-- The CategoryReconciler (Header.jsx lines 249-255): append a blank row
for every selected year absent from the pivoted data and re-sort; when no
year is missing the data is left untouched. -/
def reconcile (rows : List Row) (sel : Selection) : List Row :=
  if (missingYears rows sel).isEmpty then rows
  else sortRows (rows ++ (missingYears rows sel).map blankRow)

/-- The AnchorResolver (Header.jsx lines 273-275): scan backward from the
highlighted row for the nearest row where the team has a value, then
forward; `none` when neither direction has one. -/
def resolvedAnchor (rows : List Row) (team : Team) (idx : ℕ) : Option ℚ :=
  match (rows.take idx).reverse.findSome? (fun r => getRow r team) with
  | some a => some a
  | none => (rows.drop (idx + 1)).findSome? (fun r => getRow r team)

/-- Replace the element at an index by the image under a function
(`hd[idx][team] = anchor` touches a single element). -/
def updateAt : List Row → ℕ → (Row → Row) → List Row
  | [], _, _ => []
  | x :: t, 0, f => f x :: t
  | x :: t, n + 1, f => x :: updateAt t n f

/-- One overlay point (Header.jsx lines 264-267): a fresh object carrying
the row's year and, only at the highlighted year, the team's real value. -/
def overlayPoint (team : Team) (ySel : String) (r : Row) : Row :=
  { date := r.date,
    ratings := [(team, if r.date = ySel then getRow r team else none)] }

/-- The HighlightSeriesBuilder for one (team, year) pair (Header.jsx lines
264-277): build the sparse series `hd`; when the year exists as a category
(`hasCategory`) but the team has no value there (`!hasValue`), write the
resolved anchor value (when one exists) into the highlighted point
(`hd[idx][team] = anchor`). -/
def buildHighlight (rows : List Row) (team : Team) (ySel : String) : List Row :=
  if rows.any (fun r => r.date = ySel) ∧
      ¬ rows.any (fun r => r.date = ySel ∧ (getRow r team).isSome) then
    match resolvedAnchor rows team (rows.findIdx (fun r => r.date = ySel)) with
    | some a =>
        updateAt (rows.map (overlayPoint team ySel)) (rows.findIdx (fun r => r.date = ySel))
          (fun r => { r with ratings := setProp r.ratings team (some a) })
    | none => rows.map (overlayPoint team ySel)
  else rows.map (overlayPoint team ySel)

/-- All overlays of one team (Header.jsx lines 259-280): one `{year, data}`
entry per selected year, in selection order. -/
def overlaysForTeam (rows : List Row) (sel : Selection) (team : Team) :
    List (String × List Row) :=
  (yearsForTeam sel team).map (fun y => (y, buildHighlight rows team y))

/-- `Array.from(new Set(displayedTeams))`: deduplication keeping first
occurrences in order. -/
def dedupTeams (l : List Team) : List Team :=
  l.foldl (fun acc x => if x ∈ acc then acc else acc ++ [x]) []

/-- The y-axis domain: either recharts `"auto"` scaling or explicit
numeric bounds. -/
inductive Domain where
  | auto : Domain
  | bounds : ℚ → ℚ → Domain
deriving Repr, DecidableEq

/-- The values collected by the domain computation (Header.jsx lines
306-312): for each row in order, each displayed (deduplicated) team's
present, numeric, finite value. -/
def collectVals (data : List Row) (displayedTeams : List Team) : List ℚ :=
  data.flatMap (fun r => (dedupTeams displayedTeams).filterMap (fun t => getRow r t))

/-- The DomainCalculator `yDomain` (Header.jsx lines 302-319): `auto` when
there is no data, no team, or no collected value; otherwise pad the
min/max by 8% of the span, or by `max(10, |max| * 0.08)` when the span is
zero. -/
def yDomain (data : List Row) (displayedTeams : List Team) : Domain :=
  if data.isEmpty ∨ (dedupTeams displayedTeams).isEmpty then .auto
  else
    match collectVals data displayedTeams with
    | [] => .auto
    | v :: vs =>
      let mn := vs.foldl min v
      let mx := vs.foldl max v
      let span := mx - mn
      let pad := if span > 0 then span * (8 / 100) else max 10 (|mx| * (8 / 100))
      .bounds (mn - pad) (mx + pad)

/-- Numeric less-or-equal on period keys, the order the sort comparator
realises; vacuously true when either key is `NaN`. -/
def numLeS (a b : String) : Bool :=
  match jsNumber a, jsNumber b with
  | some x, some y => decide (x ≤ y)
  | _, _ => true

/-- Strict numeric order on period keys; vacuously true when either key
is `NaN`. -/
def numLtS (a b : String) : Bool :=
  match jsNumber a, jsNumber b with
  | some x, some y => decide (x < y)
  | _, _ => true

/-- The row sequence is ascending by the numeric value of its period
keys. -/
def RowsAscend (l : List Row) : Prop :=
  l.Pairwise (fun a b => numLeS a.date b.date = true)

/-- The row sequence is strictly ascending by the numeric value of its
period keys. -/
def RowsStrictAscend (l : List Row) : Prop :=
  l.Pairwise (fun a b => numLtS a.date b.date = true)

/-- The period keys of the row sequence are pairwise distinct. -/
def DatesNodup (l : List Row) : Prop :=
  (l.map Row.date).Nodup

/-- Distinct period keys of the sequence have distinct numeric values
(true in particular of standard four-digit year keys). -/
def NumInjOn (l : List Row) : Prop :=
  ∀ a ∈ l, ∀ b ∈ l, jsNumber a.date = jsNumber b.date → a.date = b.date

/-- The rating of the last observation, in input order, for a given
(period, team) pair; `none` when there is no such observation or its
rating is `null`. -/
def lastRating (obs : List Obs) (y : String) (t : Team) : Option ℚ :=
  ((obs.filter (fun o => yearOf o = y ∧ o.team = t)).getLast?).bind Obs.rating

/-- The value a row sequence carries for a team at a given index. -/
def valA (l : List Row) (i : ℕ) (team : Team) : Option ℚ :=
  l[i]?.bind (fun r => getRow r team)

/-! ### Concrete inputs used in witness instances -/

/-- The end-to-end observations of spec §8. -/
def exObs : List Obs :=
  [⟨"2021", "A", some 100⟩, ⟨"2022", "A", some 110⟩, ⟨"2022", "B", some 90⟩]

/-- A selection highlighting 2023 for team A only. -/
def exSel : Selection :=
  ⟨none, [("A", some ["2023"])]⟩

/-- The AnchorResolver example rows of spec §8: periods 1, 2, 3 with values
5 and 9 for team T at the outer periods. -/
def anchorRows : List Row :=
  [⟨"1", [("T", some 5)]⟩, ⟨"2", []⟩, ⟨"3", [("T", some 9)]⟩]

/-- A selection highlighting period 2 for team T. -/
def anchorSel : Selection :=
  ⟨none, [("T", some ["2"])]⟩

/-- A selection highlighting period 2 for team U, which has no data in
`anchorRows`. -/
def emptyTeamSel : Selection :=
  ⟨none, [("U", some ["2"])]⟩

/-- Observations whose distinct year keys "0001" and "1" share the numeric
value 1. -/
def collidingObs : List Obs :=
  [⟨"0001-01-01", "A", some 1⟩, ⟨"1", "A", some 2⟩]

/-- A single 2021 observation. -/
def obs2021 : List Obs :=
  [⟨"2021-05-01", "A", some 1⟩]

/-- A selection whose only highlight year (2021) is present in the data. -/
def sel2021 : Selection :=
  ⟨some "2021", []⟩

/-- Rows whose collected values for team A are [10, 20, 30]. -/
def domainRows : List Row :=
  [⟨"1", [("A", some 10)]⟩, ⟨"2", [("A", some 20)]⟩, ⟨"3", [("A", some 30)]⟩]

/-- Rows whose collected values for team A are [50, 50]. -/
def flatRows : List Row :=
  [⟨"1", [("A", some 50)]⟩, ⟨"2", [("A", some 50)]⟩]

/-- A selection with a global year and per-team entries for A (a list) and
B (null). -/
def overrideSel : Selection :=
  ⟨some "2020", [("A", some ["2021", "2022"]), ("B", none)]⟩

/-! ## Basic lemmas about ratings objects -/

theorem getProp_setProp_self (l : List (Team × Option ℚ)) (k : Team) (v : Option ℚ) :
    getProp (setProp l k v) k = v := by
  induction l with
  | nil => simp [setProp, getProp]
  | cons p t ih =>
    obtain ⟨k₁, v₁⟩ := p
    by_cases h : k₁ = k
    · simp [setProp, getProp, h]
    · simp [setProp, getProp, h, ih]

theorem getProp_setProp_ne (l : List (Team × Option ℚ)) {k k₀ : Team} (v : Option ℚ)
    (h : k₀ ≠ k) : getProp (setProp l k v) k₀ = getProp l k₀ := by
  have h₂ : ¬ (k = k₀) := fun he => h he.symm
  induction l with
  | nil => simp [setProp, getProp, h₂]
  | cons p t ih =>
    obtain ⟨k₁, v₁⟩ := p
    by_cases h₁ : k₁ = k
    · subst h₁
      simp [setProp, getProp, h₂]
    · simp [setProp, getProp, h₁, ih]

/-! ## The comparator and the numeric key order -/

theorem numLeS_of_not_lt {a b : String} (h : jsCompare a b ≠ .lt) : numLeS b a = true := by
  unfold jsCompare at h
  unfold numLeS
  cases ha : jsNumber a <;> cases hb : jsNumber b <;> simp_all

theorem numLeS_of_lt {a b : String} (h : jsCompare a b = .lt) : numLeS a b = true := by
  unfold jsCompare at h
  unfold numLeS
  cases ha : jsNumber a <;> cases hb : jsNumber b <;> simp_all
  linarith

theorem jsCompare_lt_numeric {a b : String} (h : jsCompare a b = .lt) :
    ∃ x y, jsNumber a = some x ∧ jsNumber b = some y ∧ x < y := by
  unfold jsCompare at h
  cases ha : jsNumber a <;> cases hb : jsNumber b <;> simp_all

theorem numLeS_trans_of_lt {a b c : String} (h : jsCompare a b = .lt)
    (h₂ : numLeS b c = true) : numLeS a c = true := by
  obtain ⟨x, y, hx, hy, hxy⟩ := jsCompare_lt_numeric h
  unfold numLeS at h₂ ⊢
  cases hc : jsNumber c <;> simp_all
  linarith

/-! ## The stable sort -/

theorem insertRow_perm (x : Row) (l : List Row) : (insertRow x l).Perm (x :: l) := by
  induction l with
  | nil => exact List.Perm.refl _
  | cons e t ih =>
    unfold insertRow
    split
    · exact List.Perm.refl _
    · exact (ih.cons e).trans (List.Perm.swap x e t)

theorem mem_insertRow {a x : Row} {l : List Row} (h : a ∈ insertRow x l) :
    a = x ∨ a ∈ l := by
  have := (insertRow_perm x l).mem_iff.mp h
  simpa using this

theorem sortRows_fold_perm (l : List Row) :
    ∀ acc : List Row, (l.foldl (fun a x => insertRow x a) acc).Perm (acc ++ l) := by
  induction l with
  | nil => intro acc; simp
  | cons x t ih =>
    intro acc
    have h₁ := ih (insertRow x acc)
    have h₂ : (insertRow x acc ++ t).Perm ((x :: acc) ++ t) :=
      (insertRow_perm x acc).append_right t
    have h₃ : (acc ++ x :: t).Perm (x :: (acc ++ t)) := List.perm_middle
    exact (h₁.trans (h₂.trans (List.Perm.refl _))).trans h₃.symm

theorem sortRows_perm (l : List Row) : (sortRows l).Perm l := by
  simpa using sortRows_fold_perm l []

theorem insertRow_pairwise {x : Row} {l : List Row}
    (h : RowsAscend l) : RowsAscend (insertRow x l) := by
  induction l with
  | nil => simp [insertRow, RowsAscend]
  | cons e t ih =>
    unfold RowsAscend at h ih ⊢
    rw [List.pairwise_cons] at h
    unfold insertRow
    split
    · rename_i hlt
      rw [List.pairwise_cons]
      constructor
      · intro b hb
        rcases List.mem_cons.mp hb with hb | hb
        · subst hb; exact numLeS_of_lt hlt
        · exact numLeS_trans_of_lt hlt (h.1 b hb)
      · exact List.Pairwise.cons h.1 h.2
    · rename_i hnlt
      rw [List.pairwise_cons]
      constructor
      · intro b hb
        rcases mem_insertRow hb with hb | hb
        · subst hb; exact numLeS_of_not_lt hnlt
        · exact h.1 b hb
      · exact ih h.2

theorem sortRows_fold_ascend (l : List Row) :
    ∀ acc : List Row, RowsAscend acc →
      RowsAscend (l.foldl (fun a x => insertRow x a) acc) := by
  induction l with
  | nil => intro acc h; exact h
  | cons x t ih => intro acc h; exact ih _ (insertRow_pairwise h)

theorem sortRows_ascend (l : List Row) : RowsAscend (sortRows l) :=
  sortRows_fold_ascend l [] (List.Pairwise.nil)

/-! ## The pivoting loop -/

@[simp] theorem Selection_selectedYear_mk (g : Option String)
    (m : List (Team × Option (List String))) : (Selection.mk g m).selectedYear = g := rfl

@[simp] theorem Selection_selectedYearsByTeam_mk (g : Option String)
    (m : List (Team × Option (List String))) : (Selection.mk g m).selectedYearsByTeam = m := rfl

@[simp] theorem Row_date_mk (d : String) (rs : List (Team × Option ℚ)) :
    (Row.mk d rs).date = d := rfl

@[simp] theorem Row_ratings_mk (d : String) (rs : List (Team × Option ℚ)) :
    (Row.mk d rs).ratings = rs := rfl

theorem pivotRows_append_single (obs : List Obs) (o : Obs) :
    pivotRows (obs ++ [o]) = pivotStep (pivotRows obs) o := by
  unfold pivotRows
  rw [List.foldl_append]
  rfl

theorem pivotStep_of_mem {rows : List Row} {o : Obs}
    (h : rows.any (fun r => r.date = yearOf o) = true) :
    pivotStep rows o = rows.map (updRow o) := by
  unfold pivotStep
  simp [h]

theorem updRow_date (o : Obs) (r : Row) : (updRow o r).date = r.date := by
  unfold updRow
  by_cases hr : r.date = yearOf o <;> simp [hr]

theorem pivotStep_of_not_mem {rows : List Row} {o : Obs}
    (h : ¬ rows.any (fun r => r.date = yearOf o) = true) :
    pivotStep rows o = rows ++ [{ date := yearOf o, ratings := [(o.team, o.rating)] }] := by
  unfold pivotStep
  simp [h, setProp]

theorem lastRating_append_single_self (obs : List Obs) (o : Obs) :
    lastRating (obs ++ [o]) (yearOf o) o.team = o.rating := by
  unfold lastRating
  rw [List.filter_append]
  have h₁ : List.filter (fun q => decide (yearOf q = yearOf o ∧ q.team = o.team)) [o] = [o] := by
    simp
  rw [h₁, List.getLast?_concat]
  rfl

theorem lastRating_append_single_other (obs : List Obs) (o : Obs) {y : String} {t : Team}
    (h : ¬ (yearOf o = y ∧ o.team = t)) :
    lastRating (obs ++ [o]) y t = lastRating obs y t := by
  unfold lastRating
  rw [List.filter_append]
  have h₁ : List.filter (fun q => decide (yearOf q = y ∧ q.team = t)) [o] = [] := by
    simp only [List.filter, decide_eq_true_eq]
    simp [h]
  rw [h₁, List.append_nil]

theorem lastRating_eq_none_of_no_year {obs : List Obs} {y : String} (t : Team)
    (h : ∀ o ∈ obs, yearOf o ≠ y) : lastRating obs y t = none := by
  unfold lastRating
  have h₁ : List.filter (fun q => decide (yearOf q = y ∧ q.team = t)) obs = [] := by
    rw [List.filter_eq_nil_iff]
    intro a ha
    simp [h a ha]
  rw [h₁]
  rfl

set_option maxHeartbeats 1000000 in
/-- The bundled invariant of the pivoting loop: period keys are unique,
a key occurs exactly for the years present in the input, and each row
carries, per team, the rating of the last matching observation. -/
theorem pivot_inv (obs : List Obs) :
    DatesNodup (pivotRows obs) ∧
    (∀ y : String, (∃ R ∈ pivotRows obs, R.date = y) ↔ (∃ o ∈ obs, yearOf o = y)) ∧
    (∀ R ∈ pivotRows obs, ∀ t : Team, getRow R t = lastRating obs R.date t) := by
  induction obs using List.reverseRecOn with
  | nil => simp [pivotRows, DatesNodup]
  | append_singleton obs o ih =>
    obtain ⟨ihN, ihM, ihV⟩ := ih
    rw [pivotRows_append_single]
    by_cases h : (pivotRows obs).any (fun r => r.date = yearOf o) = true
    · -- the year already has a row: one row is updated in place
      rw [pivotStep_of_mem h]
      have hobs : ∃ q ∈ obs, yearOf q = yearOf o := by
        rcases List.any_eq_true.mp h with ⟨R, hR, hRy⟩
        exact (ihM (yearOf o)).mp ⟨R, hR, of_decide_eq_true hRy⟩
      refine ⟨?_, ?_, ?_⟩
      · unfold DatesNodup at ihN ⊢
        rw [List.map_map]
        have hcomp : List.map (Row.date ∘ updRow o) (pivotRows obs) =
            List.map Row.date (pivotRows obs) :=
          List.map_congr_left (fun r _ => updRow_date o r)
        rw [hcomp]
        exact ihN
      · intro y
        have hmm : (∃ R ∈ (pivotRows obs).map (updRow o), R.date = y) ↔
            (∃ R ∈ pivotRows obs, R.date = y) := by
          constructor
          · rintro ⟨R, hR, hRy⟩
            rcases List.mem_map.mp hR with ⟨R₀, hR₀, rfl⟩
            exact ⟨R₀, hR₀, (updRow_date o R₀) ▸ hRy⟩
          · rintro ⟨R, hR, hRy⟩
            exact ⟨updRow o R, List.mem_map_of_mem _ hR, (updRow_date o R).trans hRy⟩
        rw [hmm, ihM y]
        constructor
        · rintro ⟨q, hq, hqy⟩
          exact ⟨q, List.mem_append_left _ hq, hqy⟩
        · rintro ⟨q, hq, hqy⟩
          rcases List.mem_append.mp hq with hq | hq
          · exact ⟨q, hq, hqy⟩
          · rw [List.mem_singleton] at hq
            subst hq
            obtain ⟨q₀, hq₀, hq₀y⟩ := hobs
            exact ⟨q₀, hq₀, hq₀y.trans hqy⟩
      · intro R' hR' t
        rcases List.mem_map.mp hR' with ⟨R, hR, rfl⟩
        rw [updRow_date o R]
        by_cases hRy : R.date = yearOf o
        · rw [show updRow o R = { R with ratings := setProp R.ratings o.team o.rating } by
            unfold updRow; simp [hRy]]
          by_cases ht : t = o.team
          · rw [ht]
            show getProp (setProp R.ratings o.team o.rating) o.team = _
            rw [getProp_setProp_self, hRy, lastRating_append_single_self]
          · show getProp (setProp R.ratings o.team o.rating) t = _
            rw [getProp_setProp_ne _ _ ht,
              lastRating_append_single_other obs o (fun hc => ht hc.2.symm)]
            exact ihV R hR t
        · rw [show updRow o R = R by unfold updRow; simp [hRy]]
          rw [lastRating_append_single_other obs o (fun hc => hRy hc.1.symm)]
          exact ihV R hR t
    · -- a fresh year: a new row is appended
      rw [pivotStep_of_not_mem h]
      have hnodate : ∀ R ∈ pivotRows obs, R.date ≠ yearOf o := by
        intro R hR hRy
        exact h (List.any_eq_true.mpr ⟨R, hR, decide_eq_true hRy⟩)
      have hnoy : ∀ q ∈ obs, yearOf q ≠ yearOf o := by
        intro q hq hqy
        obtain ⟨R, hR, hRy⟩ := (ihM (yearOf o)).mpr ⟨q, hq, hqy⟩
        exact hnodate R hR hRy
      refine ⟨?_, ?_, ?_⟩
      · unfold DatesNodup at ihN ⊢
        rw [List.map_append, List.nodup_append]
        refine ⟨ihN, by simp, ?_⟩
        intro a ha ha₂
        rcases List.mem_map.mp ha with ⟨R, hR, rfl⟩
        simp at ha₂
        exact hnodate R hR ha₂
      · intro y
        constructor
        · rintro ⟨R, hR, hRy⟩
          rcases List.mem_append.mp hR with hR | hR
          · obtain ⟨q, hq, hqy⟩ := (ihM y).mp ⟨R, hR, hRy⟩
            exact ⟨q, List.mem_append_left _ hq, hqy⟩
          · rw [List.mem_singleton] at hR
            subst hR
            have hRy₂ : yearOf o = y := by simpa using hRy
            exact ⟨o, List.mem_append_right _ (List.mem_singleton.mpr rfl), hRy₂⟩
        · rintro ⟨q, hq, hqy⟩
          rcases List.mem_append.mp hq with hq | hq
          · obtain ⟨R, hR, hRy⟩ := (ihM y).mpr ⟨q, hq, hqy⟩
            exact ⟨R, List.mem_append_left _ hR, hRy⟩
          · rw [List.mem_singleton] at hq
            rw [hq] at hqy
            refine ⟨{ date := yearOf o, ratings := [(o.team, o.rating)] }, ?_, by simpa using hqy⟩
            exact List.mem_append_right _ (List.mem_singleton.mpr rfl)
      · intro R' hR' t
        rcases List.mem_append.mp hR' with hR | hR
        · rw [lastRating_append_single_other obs o (fun hc => hnodate R' hR hc.1.symm)]
          exact ihV R' hR t
        · rw [List.mem_singleton] at hR
          subst hR
          have hd : ({ date := yearOf o, ratings := [(o.team, o.rating)] } : Row).date
              = yearOf o := by simp
          rw [hd]
          have hg : getRow { date := yearOf o, ratings := [(o.team, o.rating)] } t
              = getProp (setProp [] o.team o.rating) t := by
            simp [getRow, setProp]
          rw [hg]
          by_cases ht : t = o.team
          · rw [ht, getProp_setProp_self]
            exact (lastRating_append_single_self obs o).symm
          · rw [getProp_setProp_ne _ _ ht,
              lastRating_append_single_other obs o (fun hc => ht hc.2.symm),
              lastRating_eq_none_of_no_year t hnoy]
            rfl

/-! ## The aggregator -/

theorem aggregate_perm (obs : List Obs) : (aggregate obs).Perm (pivotRows obs) :=
  sortRows_perm _

theorem aggregate_datesNodup (obs : List Obs) : DatesNodup (aggregate obs) := by
  unfold DatesNodup
  rw [((aggregate_perm obs).map Row.date).nodup_iff]
  exact (pivot_inv obs).1

theorem aggregate_mem_year_iff (obs : List Obs) (y : String) :
    (∃ R ∈ aggregate obs, R.date = y) ↔ (∃ o ∈ obs, yearOf o = y) := by
  rw [← (pivot_inv obs).2.1 y]
  constructor
  · rintro ⟨R, hR, hRy⟩
    exact ⟨R, (aggregate_perm obs).subset hR, hRy⟩
  · rintro ⟨R, hR, hRy⟩
    exact ⟨R, (aggregate_perm obs).symm.subset hR, hRy⟩

theorem aggregate_getRow (obs : List Obs) {R : Row} (hR : R ∈ aggregate obs) (t : Team) :
    getRow R t = lastRating obs R.date t :=
  (pivot_inv obs).2.2 R ((aggregate_perm obs).subset hR) t

theorem aggregate_ascend (obs : List Obs) : RowsAscend (aggregate obs) :=
  sortRows_ascend _

theorem countP_date_of_nodup {l : List Row} (hN : DatesNodup l) (y : String) :
    l.countP (fun r => r.date = y) = if ∃ R ∈ l, R.date = y then 1 else 0 := by
  induction l with
  | nil => simp
  | cons r t ih =>
    unfold DatesNodup at hN ih
    rw [List.map_cons, List.nodup_cons] at hN
    have iht := ih hN.2
    rw [List.countP_cons, iht]
    by_cases hr : r.date = y
    · have h₀ : ¬ ∃ R ∈ t, R.date = y := by
        rintro ⟨R, hRt, hRy⟩
        exact hN.1 (hr ▸ hRy ▸ List.mem_map_of_mem Row.date hRt)
      simp [h₀, hr]
    · have hiff : (∃ R ∈ r :: t, R.date = y) ↔ (∃ R ∈ t, R.date = y) := by
        constructor
        · rintro ⟨R, hR, hRy⟩
          rcases List.mem_cons.mp hR with hR | hR
          · exact absurd (hR ▸ hRy) hr
          · exact ⟨R, hR, hRy⟩
        · rintro ⟨R, hR, hRy⟩
          exact ⟨R, List.mem_cons_of_mem r hR, hRy⟩
      by_cases he : ∃ R ∈ t, R.date = y <;> simp [he, hr, hiff]

theorem aggregate_countP (obs : List Obs) (y : String) :
    (aggregate obs).countP (fun r => r.date = y) =
      if ∃ o ∈ obs, yearOf o = y then 1 else 0 := by
  rw [countP_date_of_nodup (aggregate_datesNodup obs) y]
  by_cases h : ∃ o ∈ obs, yearOf o = y
  · simp [h, (aggregate_mem_year_iff obs y).mpr h]
  · have h₂ : ¬ ∃ R ∈ aggregate obs, R.date = y := fun hc =>
      h ((aggregate_mem_year_iff obs y).mp hc)
    simp [h, h₂]

/-! ## The selection -/

theorem addUnique_nodup {l : List String} (x : String) (h : l.Nodup) :
    (addUnique l x).Nodup := by
  unfold addUnique
  split
  · exact h
  · rename_i hx
    rw [List.nodup_append]
    exact ⟨h, by simp, by intro a ha ha₂; rw [List.mem_singleton] at ha₂; exact hx (ha₂ ▸ ha)⟩

theorem foldl_addUnique_nodup (ys : List String) :
    ∀ acc : List String, acc.Nodup → (ys.foldl addUnique acc).Nodup := by
  induction ys with
  | nil => intro acc h; exact h
  | cons y t ih => intro acc h; exact ih _ (addUnique_nodup y h)

theorem selectedYearsSet_nodup (sel : Selection) : (selectedYearsSet sel).Nodup := by
  unfold selectedYearsSet
  have hbase : ∀ l : List (Team × Option (List String)), ∀ acc : List String, acc.Nodup →
      (l.foldl (fun acc kv =>
        match kv.2 with
        | some ys => ys.foldl addUnique acc
        | none => acc) acc).Nodup := by
    intro l
    induction l with
    | nil => intro acc h; exact h
    | cons kv t ih =>
      intro acc h
      rw [List.foldl_cons]
      apply ih
      cases hk : kv.2 with
      | some ys =>
        simp only [hk]
        exact foldl_addUnique_nodup ys acc h
      | none =>
        simp only [hk]
        exact h
  apply hbase
  cases sel.selectedYear with
  | some y =>
    by_cases ht : strTruthy y = true <;> simp [ht]
  | none => simp

/-! ## The reconciler -/

theorem missingYears_nodup (rows : List Row) (sel : Selection) :
    (missingYears rows sel).Nodup :=
  (selectedYearsSet_nodup sel).filter _

theorem mem_missingYears {rows : List Row} {sel : Selection} {y : String} :
    y ∈ missingYears rows sel ↔
      y ∈ selectedYearsSet sel ∧ ¬ y ∈ rows.map (fun r => r.date) := by
  unfold missingYears
  rw [List.mem_filter]
  simp

theorem reconcile_perm (rows : List Row) (sel : Selection) :
    (reconcile rows sel).Perm (rows ++ (missingYears rows sel).map blankRow) := by
  unfold reconcile
  by_cases hm : (missingYears rows sel).isEmpty
  · rw [if_pos hm, List.isEmpty_iff.mp hm]
    simp
  · rw [if_neg hm]
    exact sortRows_perm _

theorem reconcile_ascend {rows : List Row} (sel : Selection) (hS : RowsAscend rows) :
    RowsAscend (reconcile rows sel) := by
  unfold reconcile
  by_cases hm : (missingYears rows sel).isEmpty
  · rw [if_pos hm]; exact hS
  · rw [if_neg hm]; exact sortRows_ascend _

theorem blankRow_date (y : String) : (blankRow y).date = y := rfl

theorem reconcile_datesNodup {rows : List Row} (sel : Selection) (hU : DatesNodup rows) :
    DatesNodup (reconcile rows sel) := by
  unfold DatesNodup
  rw [((reconcile_perm rows sel).map Row.date).nodup_iff, List.map_append, List.nodup_append]
  have hmm : (missingYears rows sel).map (Row.date ∘ blankRow) = missingYears rows sel := by
    have h₁ : (missingYears rows sel).map (Row.date ∘ blankRow) =
        (missingYears rows sel).map id :=
      List.map_congr_left (fun a _ => blankRow_date a)
    rw [h₁, List.map_id]
  refine ⟨hU, ?_, ?_⟩
  · rw [List.map_map, hmm]
    exact missingYears_nodup rows sel
  · intro a ha ha₂
    rw [List.map_map, hmm] at ha₂
    have := (mem_missingYears.mp ha₂).2
    unfold DatesNodup at hU
    exact this (by
      rcases List.mem_map.mp ha with ⟨R, hR, rfl⟩
      exact List.mem_map_of_mem _ hR)

theorem reconcile_mem_of_mem {rows : List Row} (sel : Selection) {R : Row} (hR : R ∈ rows) :
    R ∈ reconcile rows sel :=
  (reconcile_perm rows sel).symm.subset (List.mem_append_left _ hR)

theorem countP_eq_one_of_nodup_mem {l : List String} (h : l.Nodup) {y : String} (hm : y ∈ l) :
    l.countP (fun a => a = y) = 1 := by
  induction l with
  | nil => cases hm
  | cons a t ih =>
    rw [List.nodup_cons] at h
    rw [List.countP_cons]
    rcases List.mem_cons.mp hm with hm | hm
    · subst hm
      have h₀ : t.countP (fun b => b = y) = 0 :=
        List.countP_eq_zero.mpr (fun b hb hby => h.1 ((of_decide_eq_true hby) ▸ hb))
      simp [h₀]
    · have hay : ¬ (a = y) := fun hc => h.1 (hc ▸ hm)
      simp [ih h.2 hm, hay]

theorem reconcile_countP_missing {rows : List Row} {sel : Selection} {y : String}
    (hy : y ∈ selectedYearsSet sel) (hab : ∀ R ∈ rows, R.date ≠ y) :
    (reconcile rows sel).countP (fun r => r.date = y) = 1 := by
  have hnotmem : ¬ y ∈ rows.map (fun r => r.date) := by
    intro hc
    rcases List.mem_map.mp hc with ⟨R, hR, hRy⟩
    exact hab R hR hRy
  have hym : y ∈ missingYears rows sel := mem_missingYears.mpr ⟨hy, hnotmem⟩
  rw [(reconcile_perm rows sel).countP_eq, List.countP_append]
  have h₀ : rows.countP (fun r => r.date = y) = 0 :=
    List.countP_eq_zero.mpr (fun R hR hRy => hab R hR (of_decide_eq_true hRy))
  have h₁ : ((missingYears rows sel).map blankRow).countP (fun r => r.date = y) = 1 := by
    rw [List.countP_map]
    have hc : ((fun r : Row => decide (r.date = y)) ∘ blankRow) = fun a => decide (a = y) := by
      funext a
      simp [blankRow]
    rw [hc]
    exact countP_eq_one_of_nodup_mem (missingYears_nodup rows sel) hym
  rw [h₀, h₁]

theorem reconcile_blank_of_missing {rows : List Row} {sel : Selection} {y : String}
    (hab : ∀ R ∈ rows, R.date ≠ y) :
    ∀ R ∈ reconcile rows sel, R.date = y → R.ratings = [] := by
  intro R hR hRy
  rcases List.mem_append.mp ((reconcile_perm rows sel).subset hR) with hR | hR
  · exact absurd hRy (hab R hR)
  · rcases List.mem_map.mp hR with ⟨y₀, _, rfl⟩
    rfl

theorem reconcile_strict_of_missing {rows : List Row} {sel : Selection} {y : String}
    (hy : y ∈ selectedYearsSet sel) (hab : ∀ R ∈ rows, R.date ≠ y) :
    ∃ R ∈ reconcile rows sel, ¬ R ∈ rows := by
  have hnotmem : ¬ y ∈ rows.map (fun r => r.date) := by
    intro hc
    rcases List.mem_map.mp hc with ⟨R, hR, hRy⟩
    exact hab R hR hRy
  refine ⟨blankRow y, ?_, ?_⟩
  · exact (reconcile_perm rows sel).symm.subset
      (List.mem_append_right _ (List.mem_map_of_mem _ (mem_missingYears.mpr ⟨hy, hnotmem⟩)))
  · intro hc
    exact hab _ hc (blankRow_date y)

/-! ## Scanning lemmas -/

theorem findSome?_eq_some_first {α β : Type} (g : α → Option β) :
    ∀ (l : List α) (j : ℕ) (a : β), l[j]?.bind g = some a →
      (∀ k, k < j → l[k]?.bind g = none) → l.findSome? g = some a := by
  intro l
  induction l with
  | nil => intro j a hj _; simp at hj
  | cons x t ih =>
    intro j a hj hk
    cases j with
    | zero =>
      rw [List.getElem?_cons_zero] at hj
      simp only [Option.some_bind] at hj
      rw [List.findSome?_cons, hj]
    | succ n =>
      have h₀ : g x = none := by
        have := hk 0 (Nat.succ_pos n)
        simpa using this
      rw [List.findSome?_cons, h₀]
      rw [List.getElem?_cons_succ] at hj
      exact ih n a hj (fun k hkn => by
        have := hk (k + 1) (Nat.succ_lt_succ hkn)
        simpa using this)

theorem findSome?_eq_none_of_forall {α β : Type} (g : α → Option β) (l : List α)
    (h : ∀ x ∈ l, g x = none) : l.findSome? g = none :=
  List.findSome?_eq_none_iff.mpr h

/-! ## Point updates -/

theorem updateAt_getElem?_self (f : Row → Row) :
    ∀ (l : List Row) (i : ℕ), (updateAt l i f)[i]? = l[i]?.map f := by
  intro l
  induction l with
  | nil => intro i; cases i <;> simp [updateAt]
  | cons x t ih =>
    intro i
    cases i with
    | zero => simp [updateAt]
    | succ n => simpa [updateAt] using ih n

theorem updateAt_getElem?_ne (f : Row → Row) :
    ∀ (l : List Row) (i j : ℕ), j ≠ i → (updateAt l i f)[j]? = l[j]? := by
  intro l
  induction l with
  | nil => intro i j _; cases i <;> simp [updateAt]
  | cons x t ih =>
    intro i j hne
    cases i with
    | zero =>
      cases j with
      | zero => exact absurd rfl hne
      | succ m => simp [updateAt]
    | succ n =>
      cases j with
      | zero => simp [updateAt]
      | succ m =>
        have : m ≠ n := fun hc => hne (by rw [hc])
        simpa [updateAt] using ih n m this

theorem updateAt_map_date {f : Row → Row} (hf : ∀ r, (f r).date = r.date) :
    ∀ (l : List Row) (i : ℕ), (updateAt l i f).map Row.date = l.map Row.date := by
  intro l
  induction l with
  | nil => intro i; cases i <;> rfl
  | cons x t ih =>
    intro i
    cases i with
    | zero => simp [updateAt, hf x]
    | succ n => simp [updateAt, ih n]

theorem mem_updateAt {f : Row → Row} :
    ∀ {l : List Row} {i : ℕ} {x : Row}, x ∈ updateAt l i f →
      x ∈ l ∨ ∃ y, l[i]? = some y ∧ x = f y := by
  intro l
  induction l with
  | nil => intro i x hx; cases i <;> cases hx
  | cons e t ih =>
    intro i x hx
    cases i with
    | zero =>
      rcases List.mem_cons.mp hx with hx | hx
      · exact Or.inr ⟨e, List.getElem?_cons_zero, hx⟩
      · exact Or.inl (List.mem_cons_of_mem e hx)
    | succ n =>
      rcases List.mem_cons.mp hx with hx | hx
      · exact Or.inl (hx ▸ List.mem_cons_self e t)
      · rcases ih hx with hx | ⟨y, hy, hxy⟩
        · exact Or.inl (List.mem_cons_of_mem e hx)
        · exact Or.inr ⟨y, by rw [List.getElem?_cons_succ]; exact hy, hxy⟩

/-! ## findIdx -/

theorem findIdx_getElem?_before {p : Row → Bool} :
    ∀ (l : List Row) (k : ℕ), k < l.findIdx p → ∃ r, l[k]? = some r ∧ p r = false := by
  intro l
  induction l with
  | nil => intro k hk; simp [List.findIdx, List.findIdx.go] at hk
  | cons x t ih =>
    intro k hk
    rw [List.findIdx_cons] at hk
    cases hp : p x with
    | true => rw [hp] at hk; simp at hk
    | false =>
      rw [hp] at hk
      simp only [cond_false] at hk
      cases k with
      | zero => exact ⟨x, List.getElem?_cons_zero, hp⟩
      | succ n =>
        rw [List.getElem?_cons_succ]
        exact ih n (Nat.lt_of_succ_lt_succ hk)

theorem findIdx_getElem?_found {p : Row → Bool} :
    ∀ (l : List Row), l.any p = true → ∃ r, l[l.findIdx p]? = some r ∧ p r = true := by
  intro l
  induction l with
  | nil => intro h; simp at h
  | cons x t ih =>
    intro h
    rw [List.findIdx_cons]
    cases hp : p x with
    | true => exact ⟨x, by simp, hp⟩
    | false =>
      have ht : t.any p = true := by
        rcases List.any_eq_true.mp h with ⟨r, hr, hrp⟩
        rcases List.mem_cons.mp hr with hr | hr
        · rw [← hr] at hp; rw [hp] at hrp; cases hrp
        · exact List.any_eq_true.mpr ⟨r, hr, hrp⟩
      obtain ⟨r, hr, hrp⟩ := ih ht
      exact ⟨r, by simpa [hp] using hr, hrp⟩

theorem findIdx_lt_of_any {p : Row → Bool} {l : List Row} (h : l.any p = true) :
    l.findIdx p < l.length :=
  List.findIdx_lt_length_of_exists (by simpa [List.any_eq_true] using h)

theorem datesNodup_index_unique {l : List Row} (hU : DatesNodup l) :
    ∀ {i j : ℕ} {r s : Row}, l[i]? = some r → l[j]? = some s → r.date = s.date → i = j := by
  unfold DatesNodup at hU
  intro i j r s hi hj hd
  by_contra hne
  have hi₂ : (l.map Row.date)[i]? = some r.date := by rw [List.getElem?_map, hi]; rfl
  have hj₂ : (l.map Row.date)[j]? = some s.date := by rw [List.getElem?_map, hj]; rfl
  rw [← hd] at hj₂
  have hil : i < (l.map Row.date).length := by
    rcases List.getElem?_eq_some.mp hi₂ with ⟨h, _⟩
    exact h
  have hjl : j < (l.map Row.date).length := by
    rcases List.getElem?_eq_some.mp hj₂ with ⟨h, _⟩
    exact h
  have := List.Nodup.get_inj_iff hU (i := ⟨i, hil⟩) (j := ⟨j, hjl⟩)
  apply hne
  have hgi : (l.map Row.date).get ⟨i, hil⟩ = r.date := by
    have := List.getElem?_eq_getElem hil
    rw [this] at hi₂
    simpa using hi₂
  have hgj : (l.map Row.date).get ⟨j, hjl⟩ = r.date := by
    have := List.getElem?_eq_getElem hjl
    rw [this] at hj₂
    simpa using hj₂
  have := this.mp (by rw [hgi, hgj])
  exact congrArg Fin.val this

/-! ## The anchor resolver -/

theorem resolvedAnchor_backward {rows : List Row} {team : Team} {idx j : ℕ} {a : ℚ}
    (hidx : idx ≤ rows.length) (hj : j < idx) (hval : valA rows j team = some a)
    (hbet : ∀ k, j < k → k < idx → valA rows k team = none) :
    resolvedAnchor rows team idx = some a := by
  simp only [valA] at hval hbet
  unfold resolvedAnchor
  have hlen : (rows.take idx).length = idx := by
    rw [List.length_take]
    omega
  have hB : ∀ k, k < idx → (rows.take idx).reverse[k]? = rows[idx - 1 - k]? := by
    intro k hk
    rw [List.getElem?_reverse (by rw [hlen]; exact hk), hlen,
      List.getElem?_take_of_lt (by omega)]
  have hfind : (rows.take idx).reverse.findSome? (fun r => getRow r team) = some a := by
    apply findSome?_eq_some_first (fun r => getRow r team) _ (idx - 1 - j) a
    · rw [hB (idx - 1 - j) (by omega)]
      have he : idx - 1 - (idx - 1 - j) = j := by omega
      rw [he]
      exact hval
    · intro k hk
      rw [hB k (by omega)]
      exact hbet (idx - 1 - k) (by omega) (by omega)
  rw [hfind]

theorem resolvedAnchor_forward {rows : List Row} {team : Team} {idx j : ℕ} {a : ℚ}
    (hback : ∀ k, k < idx → valA rows k team = none)
    (hj : idx < j) (hval : valA rows j team = some a)
    (hbet : ∀ k, idx < k → k < j → valA rows k team = none) :
    resolvedAnchor rows team idx = some a := by
  simp only [valA] at hback hval hbet
  unfold resolvedAnchor
  have hbnone : (rows.take idx).reverse.findSome? (fun r => getRow r team) = none := by
    apply findSome?_eq_none_of_forall
    intro x hx
    rw [List.mem_reverse] at hx
    rcases List.mem_iff_getElem?.mp hx with ⟨k, hk⟩
    have hkl : k < idx := by
      have hlt := (List.getElem?_eq_some.mp hk).1
      rw [List.length_take] at hlt
      omega
    have hrk : rows[k]? = some x := by
      rw [← List.getElem?_take_of_lt hkl]
      exact hk
    have hva := hback k hkl
    rw [hrk] at hva
    simpa using hva
  rw [hbnone]
  apply findSome?_eq_some_first (fun r => getRow r team) _ (j - idx - 1) a
  · rw [List.getElem?_drop]
    have he : idx + 1 + (j - idx - 1) = j := by omega
    rw [he]
    exact hval
  · intro k hk
    rw [List.getElem?_drop]
    exact hbet (idx + 1 + k) (by omega) (by omega)

theorem resolvedAnchor_of_none {rows : List Row} {team : Team} {idx : ℕ}
    (h : ∀ r ∈ rows, getRow r team = none) :
    resolvedAnchor rows team idx = none := by
  unfold resolvedAnchor
  have h₁ : (rows.take idx).reverse.findSome? (fun r => getRow r team) = none :=
    findSome?_eq_none_of_forall _ _
      (fun x hx => h x (List.mem_of_mem_take (List.mem_reverse.mp hx)))
  rw [h₁]
  exact findSome?_eq_none_of_forall _ _ (fun x hx => h x (List.mem_of_mem_drop hx))

/-! ## The highlight series builder -/

theorem getRow_overlayPoint (team : Team) (ySel : String) (r : Row) :
    getRow (overlayPoint team ySel r) team =
      if r.date = ySel then getRow r team else none := by
  simp [overlayPoint, getRow, getProp]

theorem valA_map_overlay {rows : List Row} (team : Team) (ySel : String) {i : ℕ} {r : Row}
    (hi : rows[i]? = some r) :
    valA (rows.map (overlayPoint team ySel)) i team =
      if r.date = ySel then getRow r team else none := by
  unfold valA
  rw [List.getElem?_map, hi]
  simp only [Option.map_some', Option.some_bind]
  exact getRow_overlayPoint team ySel r

theorem buildHighlight_map_date (rows : List Row) (team : Team) (ySel : String) :
    (buildHighlight rows team ySel).map Row.date = rows.map Row.date := by
  have hplain : (rows.map (overlayPoint team ySel)).map Row.date = rows.map Row.date := by
    rw [List.map_map]
    exact List.map_congr_left (fun r _ => rfl)
  unfold buildHighlight
  split
  · split
    · rename_i a _
      rw [updateAt_map_date
        (f := fun r => { r with ratings := setProp r.ratings team (some a) })
        (fun r => rfl), hplain]
    · exact hplain
  · exact hplain

theorem buildHighlight_valA {rows : List Row} (team : Team) (ySel : String)
    (hU : DatesNodup rows) {i : ℕ} {r : Row} (hi : rows[i]? = some r) :
    valA (buildHighlight rows team ySel) i team =
      if r.date = ySel then
        (if (getRow r team).isSome then getRow r team
         else resolvedAnchor rows team (rows.findIdx (fun x => x.date = ySel)))
      else none := by
  have hrmem : r ∈ rows := List.mem_iff_getElem?.mpr ⟨i, hi⟩
  by_cases hry : r.date = ySel
  · rw [if_pos hry]
    by_cases hv : (getRow r team).isSome = true
    · rw [if_pos hv]
      have hasV : rows.any (fun x => x.date = ySel ∧ (getRow x team).isSome) = true :=
        List.any_eq_true.mpr ⟨r, hrmem, decide_eq_true ⟨hry, hv⟩⟩
      unfold buildHighlight
      rw [if_neg (fun hc => hc.2 hasV)]
      rw [valA_map_overlay team ySel hi, if_pos hry]
    · rw [if_neg hv]
      have hnov : ∀ x ∈ rows, x.date = ySel → getRow x team = none := by
        intro x hx hxy
        rcases List.mem_iff_getElem?.mp hx with ⟨j, hj⟩
        have hji := datesNodup_index_unique hU hj hi (by rw [hxy, hry])
        rw [hji, hi] at hj
        have hxr : r = x := by injection hj
        rw [← hxr]
        exact Option.not_isSome_iff_eq_none.mp hv
      have hasC : rows.any (fun x => x.date = ySel) = true :=
        List.any_eq_true.mpr ⟨r, hrmem, decide_eq_true hry⟩
      have hasVf : ¬ rows.any (fun x => x.date = ySel ∧ (getRow x team).isSome) = true := by
        intro hc
        rcases List.any_eq_true.mp hc with ⟨x, hx, hxp⟩
        have hxp₂ := of_decide_eq_true hxp
        have h₀ := hnov x hx hxp₂.1
        rw [h₀] at hxp₂
        exact Bool.false_ne_true hxp₂.2
      have hidxeq : rows.findIdx (fun x => x.date = ySel) = i := by
        obtain ⟨r₀, hr₀, hr₀p⟩ := findIdx_getElem?_found rows hasC
        exact datesNodup_index_unique hU hr₀ hi (by rw [of_decide_eq_true hr₀p, hry])
      unfold buildHighlight
      rw [if_pos ⟨hasC, hasVf⟩]
      cases han : resolvedAnchor rows team (rows.findIdx (fun x => x.date = ySel)) with
      | some a =>
        unfold valA
        rw [hidxeq, updateAt_getElem?_self, List.getElem?_map, hi]
        simp only [Option.map_some', Option.some_bind]
        exact getProp_setProp_self _ _ _
      | none =>
        rw [valA_map_overlay team ySel hi, if_pos hry]
        exact Option.not_isSome_iff_eq_none.mp hv
  · rw [if_neg hry]
    unfold buildHighlight
    split
    · rename_i hcond
      split
      · rename_i a han
        have hidxne : rows.findIdx (fun x => x.date = ySel) ≠ i := by
          intro hc
          obtain ⟨r₀, hr₀, hr₀p⟩ := findIdx_getElem?_found rows hcond.1
          rw [hc, hi] at hr₀
          have hr₀r : r = r₀ := by injection hr₀
          rw [← hr₀r] at hr₀p
          exact hry (of_decide_eq_true hr₀p)
        unfold valA
        rw [updateAt_getElem?_ne _ _ _ _ (fun hc => hidxne hc.symm), List.getElem?_map, hi]
        simp only [Option.map_some', Option.some_bind]
        rw [getRow_overlayPoint, if_neg hry]
      · rw [valA_map_overlay team ySel hi, if_neg hry]
    · rw [valA_map_overlay team ySel hi, if_neg hry]

theorem buildHighlight_getRow_none {rows : List Row} {team : Team} {ySel : String}
    (h : ∀ r ∈ rows, getRow r team = none) :
    ∀ x ∈ buildHighlight rows team ySel, getRow x team = none := by
  intro x hx
  have hover : ∀ x₂ ∈ rows.map (overlayPoint team ySel), getRow x₂ team = none := by
    intro x₂ hx₂
    rcases List.mem_map.mp hx₂ with ⟨r, hr, rfl⟩
    rw [getRow_overlayPoint]
    split
    · exact h r hr
    · rfl
  unfold buildHighlight at hx
  split at hx
  · rw [resolvedAnchor_of_none h] at hx
    exact hover x hx
  · exact hover x hx

/-! ## Strictness of the key order -/

theorem numLtS_of_le_ne {a b : String} (hle : numLeS a b = true)
    (hinj : jsNumber a = jsNumber b → a = b) (hne : a ≠ b) : numLtS a b = true := by
  unfold numLeS at hle
  unfold numLtS
  cases ha : jsNumber a <;> cases hb : jsNumber b <;> simp_all
  exact lt_of_le_of_ne hle hinj

theorem strictAscend_of_ascend {l : List Row} (hA : RowsAscend l) (hN : DatesNodup l)
    (hI : NumInjOn l) : RowsStrictAscend l := by
  unfold RowsStrictAscend
  unfold RowsAscend at hA
  have hDN : l.Pairwise (fun a b => a.date ≠ b.date) := by
    unfold DatesNodup at hN
    exact List.pairwise_map.mp hN
  exact (hA.and hDN).imp_of_mem
    (fun ha hb hab => numLtS_of_le_ne hab.1 (fun hj => hI _ ha _ hb hj) hab.2)

/-! ## Minimum and maximum folds -/

theorem foldl_min_le (vs : List ℚ) : ∀ v : ℚ, vs.foldl min v ≤ v := by
  induction vs with
  | nil => intro v; exact le_refl v
  | cons x t ih => intro v; exact le_trans (ih (min v x)) (min_le_left v x)

theorem foldl_min_le_mem (vs : List ℚ) : ∀ (v x : ℚ), x ∈ vs → vs.foldl min v ≤ x := by
  induction vs with
  | nil => intro v x hx; cases hx
  | cons e t ih =>
    intro v x hx
    rcases List.mem_cons.mp hx with hx | hx
    · rw [hx, List.foldl_cons]
      exact le_trans (foldl_min_le t (min v e)) (min_le_right v e)
    · exact ih (min v e) x hx

theorem foldl_min_mem (vs : List ℚ) : ∀ v : ℚ, vs.foldl min v = v ∨ vs.foldl min v ∈ vs := by
  induction vs with
  | nil => intro v; exact Or.inl rfl
  | cons e t ih =>
    intro v
    rw [List.foldl_cons]
    rcases ih (min v e) with h | h
    · rcases min_choice v e with hm | hm
      · exact Or.inl (by rw [h, hm])
      · exact Or.inr (by rw [h, hm]; exact List.mem_cons_self e t)
    · exact Or.inr (List.mem_cons_of_mem e h)

theorem foldl_max_ge (vs : List ℚ) : ∀ v : ℚ, v ≤ vs.foldl max v := by
  induction vs with
  | nil => intro v; exact le_refl v
  | cons x t ih => intro v; exact le_trans (le_max_left v x) (ih (max v x))

theorem foldl_max_ge_mem (vs : List ℚ) : ∀ (v x : ℚ), x ∈ vs → x ≤ vs.foldl max v := by
  induction vs with
  | nil => intro v x hx; cases hx
  | cons e t ih =>
    intro v x hx
    rcases List.mem_cons.mp hx with hx | hx
    · rw [hx]
      exact le_trans (le_max_right v e) (foldl_max_ge t (max v e))
    · exact ih (max v e) x hx

theorem foldl_max_mem (vs : List ℚ) : ∀ v : ℚ, vs.foldl max v = v ∨ vs.foldl max v ∈ vs := by
  induction vs with
  | nil => intro v; exact Or.inl rfl
  | cons e t ih =>
    intro v
    rw [List.foldl_cons]
    rcases ih (max v e) with h | h
    · rcases max_choice v e with hm | hm
      · exact Or.inl (by rw [h, hm])
      · exact Or.inr (by rw [h, hm]; exact List.mem_cons_self e t)
    · exact Or.inr (List.mem_cons_of_mem e h)

/-! ## Overlay collections -/

theorem overlaysForTeam_keys (rows : List Row) (sel : Selection) (team : Team) :
    (overlaysForTeam rows sel team).map Prod.fst = yearsForTeam sel team := by
  unfold overlaysForTeam
  rw [List.map_map]
  have h : (yearsForTeam sel team).map
      (Prod.fst ∘ fun y => (y, buildHighlight rows team y)) =
      (yearsForTeam sel team).map id :=
    List.map_congr_left (fun y _ => rfl)
  rw [h, List.map_id]

theorem mem_overlaysForTeam {rows : List Row} {sel : Selection} {team : Team}
    {p : String} {hl : List Row} :
    (p, hl) ∈ overlaysForTeam rows sel team ↔
      p ∈ yearsForTeam sel team ∧ hl = buildHighlight rows team p := by
  unfold overlaysForTeam
  rw [List.mem_map]
  constructor
  · rintro ⟨y, hy, heq⟩
    have hp : y = p := congrArg Prod.fst heq
    have hh : buildHighlight rows team y = hl := congrArg Prod.snd heq
    subst hp
    exact ⟨hy, hh.symm⟩
  · rintro ⟨hp, rfl⟩
    exact ⟨p, hp, rfl⟩

theorem buildHighlight_off_target {rows : List Row} {team : Team} {ySel : String} :
    ∀ x ∈ buildHighlight rows team ySel, x.date ≠ ySel → getRow x team = none := by
  intro x hx hxd
  have hover : ∀ r : Row, x = overlayPoint team ySel r → getRow x team = none := by
    intro r hr
    rw [hr, getRow_overlayPoint, if_neg (fun hc => hxd (by rw [hr]; exact hc))]
  unfold buildHighlight at hx
  split at hx
  · rename_i hcond
    split at hx
    · rename_i a han
      rcases mem_updateAt hx with hx | ⟨y, hy, hxy⟩
      · rcases List.mem_map.mp hx with ⟨r, hr, hrx⟩
        exact hover r hrx.symm
      · -- the updated point sits at the highlighted category, excluded by hxd
        exfalso
        obtain ⟨r₀, hr₀, hr₀p⟩ := findIdx_getElem?_found rows hcond.1
        rw [List.getElem?_map, hr₀] at hy
        have hy₂ : y = overlayPoint team ySel r₀ := by
          simpa using hy.symm
        apply hxd
        rw [hxy, hy₂]
        exact of_decide_eq_true hr₀p
    · rcases List.mem_map.mp hx with ⟨r, hr, hrx⟩
      exact hover r hrx.symm
  · rcases List.mem_map.mp hx with ⟨r, hr, hrx⟩
    exact hover r hrx.symm

/-! ## The domain calculator -/

theorem collectVals_of_data_empty {data : List Row} (teams : List Team)
    (h : data.isEmpty = true) : collectVals data teams = [] := by
  unfold collectVals
  rw [List.isEmpty_iff.mp h]
  rfl

theorem collectVals_of_teams_empty (data : List Row) {teams : List Team}
    (h : (dedupTeams teams).isEmpty = true) : collectVals data teams = [] := by
  unfold collectVals
  rw [List.isEmpty_iff.mp h]
  simp

theorem yDomain_of_empty_vals {data : List Row} {teams : List Team}
    (h : collectVals data teams = []) : yDomain data teams = Domain.auto := by
  unfold yDomain
  split
  · rfl
  · rw [h]

theorem yDomain_of_vals {data : List Row} {teams : List Team} {v : ℚ} {vs : List ℚ}
    (h : collectVals data teams = v :: vs) :
    yDomain data teams =
      Domain.bounds
        ((vs.foldl min v) -
          (if (vs.foldl max v) - (vs.foldl min v) > 0
            then ((vs.foldl max v) - (vs.foldl min v)) * (8 / 100)
            else max 10 (|vs.foldl max v| * (8 / 100))))
        ((vs.foldl max v) +
          (if (vs.foldl max v) - (vs.foldl min v) > 0
            then ((vs.foldl max v) - (vs.foldl min v)) * (8 / 100)
            else max 10 (|vs.foldl max v| * (8 / 100)))) := by
  have hne : ¬ (data.isEmpty = true ∨ (dedupTeams teams).isEmpty = true) := by
    rintro (hc | hc)
    · rw [collectVals_of_data_empty teams hc] at h
      cases h
    · rw [collectVals_of_teams_empty data hc] at h
      cases h
  unfold yDomain
  rw [if_neg hne, h]

/-! ## Claim theorems -/

/-- C2: for every input sequence of rating observations, the aggregator
produces exactly one pivot row per distinct period key present in the
input; each row's entry for a team equals the rating of the last
observation in input order for that (period, team) pair; the rows are
sorted ascending by the numeric value of the period key; and the empty
input yields the empty output. -/
theorem C2_aggregator_pivot (obs : List Obs) :
    (∀ y : String, (aggregate obs).countP (fun r => r.date = y) =
        if ∃ o ∈ obs, yearOf o = y then 1 else 0) ∧
    (∀ R ∈ aggregate obs, ∀ t : Team, getRow R t = lastRating obs R.date t) ∧
    RowsAscend (aggregate obs) ∧
    aggregate [] = [] := by
  refine ⟨aggregate_countP obs, ?_, aggregate_ascend obs, rfl⟩
  intro R hR t
  exact aggregate_getRow obs hR t

theorem C2_witness :
    (aggregate exObs).countP (fun r => r.date = "2022") = 1 ∧
    getRow { date := "2022", ratings := [("A", some 110), ("B", some 90)] } "B" =
      lastRating exObs "2022" "B" ∧
    RowsAscend (aggregate exObs) ∧
    aggregate [] = [] := by
  obtain ⟨h₁, h₂, h₃, h₄⟩ := C2_aggregator_pivot exObs
  refine ⟨?_, ?_, h₃, h₄⟩
  · rw [h₁ "2022"]
    decide
  · exact h₂ { date := "2022", ratings := [("A", some 110), ("B", some 90)] } (by decide) "B"

/-- C10: the period key used throughout the pipeline is the first four
characters of the observation's date string; all observations sharing that
four-character prefix collapse into a single row whose entry per team is
the rating of the last such observation in input order. -/
theorem C10_year_key (obs : List Obs) (o : Obs) (ho : o ∈ obs) :
    (aggregate obs).countP (fun r => r.date = o.date.take 4) = 1 ∧
    (∀ R ∈ aggregate obs, R.date = o.date.take 4 →
      getRow R o.team = lastRating obs (o.date.take 4) o.team) := by
  constructor
  · rw [aggregate_countP obs (o.date.take 4), if_pos ⟨o, ho, rfl⟩]
  · intro R hR hRd
    have h := aggregate_getRow obs hR o.team
    rw [hRd] at h
    exact h

theorem C10_witness :
    (aggregate exObs).countP (fun r => r.date = "2022") = 1 ∧
    getRow { date := "2022", ratings := [("A", some 110), ("B", some 90)] } "B" =
      lastRating exObs "2022" "B" := by
  have h := C10_year_key exObs ⟨"2022", "B", some 90⟩ (by decide)
  have hpref : (Obs.mk "2022" "B" (some 90)).date.take 4 = "2022" := by decide
  obtain ⟨h₁, h₂⟩ := h
  rw [hpref] at h₁ h₂
  exact ⟨h₁, h₂ { date := "2022", ratings := [("A", some 110), ("B", some 90)] }
    (by decide) (by decide)⟩

/-- C7 fails as stated: the aggregator output for dates "0001-01-01" and
"1" has the distinct keys "0001" and "1", whose numeric values are both 1,
so the rows are not strictly ascending by numeric value. -/
theorem C7_counterexample : ¬ RowsStrictAscend (aggregate collidingObs) := by
  unfold RowsStrictAscend
  decide

/-- C7 (amended): for aggregator outputs and for reconciler outputs built
from them, the period keys are pairwise distinct and the rows ascend by
the numeric value of their keys; the ascent is strict whenever distinct
keys occurring in the rows have distinct numeric values (as is the case
for standard four-digit year keys). -/
theorem C7_keys_unique_sorted (obs : List Obs) (sel : Selection) :
    (DatesNodup (aggregate obs) ∧ RowsAscend (aggregate obs) ∧
      (NumInjOn (aggregate obs) → RowsStrictAscend (aggregate obs))) ∧
    (DatesNodup (reconcile (aggregate obs) sel) ∧
      RowsAscend (reconcile (aggregate obs) sel) ∧
      (NumInjOn (reconcile (aggregate obs) sel) →
        RowsStrictAscend (reconcile (aggregate obs) sel))) := by
  refine ⟨⟨aggregate_datesNodup obs, aggregate_ascend obs, ?_⟩,
    ⟨reconcile_datesNodup sel (aggregate_datesNodup obs),
      reconcile_ascend sel (aggregate_ascend obs), ?_⟩⟩
  · intro hI
    exact strictAscend_of_ascend (aggregate_ascend obs) (aggregate_datesNodup obs) hI
  · intro hI
    exact strictAscend_of_ascend (reconcile_ascend sel (aggregate_ascend obs))
      (reconcile_datesNodup sel (aggregate_datesNodup obs)) hI

theorem C7_witness : RowsStrictAscend (aggregate exObs) :=
  (C7_keys_unique_sorted exObs exSel).1.2.2 (by unfold NumInjOn; decide)

/-- C3 fails as stated: when every selected period already exists in the
data the reconciler returns its input unchanged, so the output row set is
not a strict superset of the input row set. -/
theorem C3_counterexample :
    ¬ ∃ R ∈ reconcile (aggregate obs2021) sel2021, ¬ R ∈ aggregate obs2021 := by
  decide

/-- C3 (amended): for every uniquely-keyed sorted row sequence and every
selection, each selected period absent from the rows yields exactly one
output row, carrying an empty ratings map; the output contains every input
row, is a strict superset whenever some selected period is absent, and is
uniquely keyed and sorted. -/
theorem C3_reconciler (rows : List Row) (sel : Selection)
    (hU : DatesNodup rows) (hS : RowsAscend rows) :
    (∀ y ∈ selectedYearsSet sel, (∀ R ∈ rows, R.date ≠ y) →
      ((reconcile rows sel).countP (fun r => r.date = y) = 1 ∧
        ∀ R ∈ reconcile rows sel, R.date = y → R.ratings = [])) ∧
    (∀ R ∈ rows, R ∈ reconcile rows sel) ∧
    ((∃ y ∈ selectedYearsSet sel, ∀ R ∈ rows, R.date ≠ y) →
      ∃ R ∈ reconcile rows sel, ¬ R ∈ rows) ∧
    DatesNodup (reconcile rows sel) ∧
    RowsAscend (reconcile rows sel) := by
  refine ⟨?_, ?_, ?_, reconcile_datesNodup sel hU, reconcile_ascend sel hS⟩
  · intro y hy hab
    exact ⟨reconcile_countP_missing hy hab, reconcile_blank_of_missing hab⟩
  · intro R hR
    exact reconcile_mem_of_mem sel hR
  · rintro ⟨y, hy, hab⟩
    exact reconcile_strict_of_missing hy hab

theorem C3_witness :
    (reconcile (aggregate exObs) exSel).countP (fun r => r.date = "2023") = 1 := by
  exact ((C3_reconciler (aggregate exObs) exSel (by unfold DatesNodup; decide)
    (by unfold RowsAscend; decide)).1 "2023" (by decide) (by decide)).1

/-- C5: the domain calculator collects the present, numeric, finite
values of the displayed teams; an empty collection yields the automatic
domain; otherwise, with the minimum and maximum of the collection, a
positive span is padded by 8% of the span on both sides, and a zero span
is padded by max(10, |max| * 0.08). -/
theorem C5_domain_calculator (data : List Row) (teams : List Team) :
    (collectVals data teams = [] → yDomain data teams = Domain.auto) ∧
    (∀ v : ℚ, ∀ vs : List ℚ, collectVals data teams = v :: vs →
      ∃ mn mx : ℚ, mn ∈ collectVals data teams ∧ mx ∈ collectVals data teams ∧
        (∀ x ∈ collectVals data teams, mn ≤ x ∧ x ≤ mx) ∧
        (mx - mn > 0 →
          yDomain data teams =
            Domain.bounds (mn - (mx - mn) * (8 / 100)) (mx + (mx - mn) * (8 / 100))) ∧
        (mx - mn = 0 →
          yDomain data teams =
            Domain.bounds (mx - max 10 (|mx| * (8 / 100)))
              (mx + max 10 (|mx| * (8 / 100))))) := by
  constructor
  · exact yDomain_of_empty_vals
  · intro v vs h
    refine ⟨vs.foldl min v, vs.foldl max v, ?_, ?_, ?_, ?_, ?_⟩
    · rw [h]
      rcases foldl_min_mem vs v with hm | hm
      · rw [hm]
        exact List.mem_cons_self v vs
      · exact List.mem_cons_of_mem v hm
    · rw [h]
      rcases foldl_max_mem vs v with hm | hm
      · rw [hm]
        exact List.mem_cons_self v vs
      · exact List.mem_cons_of_mem v hm
    · intro x hx
      rw [h] at hx
      rcases List.mem_cons.mp hx with hx | hx
      · rw [hx]
        exact ⟨foldl_min_le vs v, foldl_max_ge vs v⟩
      · exact ⟨foldl_min_le_mem vs v x hx, foldl_max_ge_mem vs v x hx⟩
    · intro hsp
      rw [yDomain_of_vals h, if_pos hsp]
    · intro hz
      have hmneq : vs.foldl min v = vs.foldl max v := by linarith
      rw [yDomain_of_vals h, if_neg (by rw [hz]; exact lt_irrefl 0), hmneq]

theorem C5_witness : yDomain flatRows ["A"] = Domain.bounds 40 60 := by
  obtain ⟨mn, mx, hmn, hmx, hbd, hpos, hzero⟩ :=
    (C5_domain_calculator flatRows ["A"]).2 50 [50] (by decide)
  have hvals : collectVals flatRows ["A"] = [50, 50] := by decide
  rw [hvals] at hmn hmx
  have hmn₂ : mn = 50 := by
    rcases List.mem_cons.mp hmn with h | h
    · exact h
    · simpa using h
  have hmx₂ : mx = 50 := by
    rcases List.mem_cons.mp hmx with h | h
    · exact h
    · simpa using h
  have h₅ := hzero (by rw [hmn₂, hmx₂, sub_self])
  rw [hmx₂] at h₅
  rw [h₅]
  norm_num [max_def]

/-- C6 fails as stated: on rows whose collected values are [10, 20, 30]
the domain calculator pads by 8% of the span 20, i.e. by 1.6, so it does
not return the bounds [9.2, 30.8] stated in the spec. -/
theorem C6_counterexample :
    collectVals domainRows ["A"] = [10, 20, 30] ∧
    yDomain domainRows ["A"] ≠ Domain.bounds (46 / 5) (154 / 5) := by
  have hv : collectVals domainRows ["A"] = [10, 20, 30] := by decide
  refine ⟨hv, ?_⟩
  rw [yDomain_of_vals hv]
  norm_num [List.foldl, min_def, max_def]

/-- C6 (amended): on collected values [10, 20, 30] the domain calculator
yields the padded bounds [8.4, 31.6] (pad 1.6 = 8% of the span 20). -/
theorem C6_amended (data : List Row) (teams : List Team)
    (h : collectVals data teams = [10, 20, 30]) :
    yDomain data teams = Domain.bounds (42 / 5) (158 / 5) := by
  rw [yDomain_of_vals h]
  norm_num [List.foldl, min_def, max_def]

theorem C6_witness : yDomain domainRows ["A"] = Domain.bounds (42 / 5) (158 / 5) :=
  C6_amended domainRows ["A"] (by decide)

/-- C1: over a sorted, uniquely-keyed reconciled row sequence, for a team
T and a period p selected for T that exists as a row where T has no value,
the highlight point at p carries the value of the nearest earlier row in
which T has a value; when no earlier row has one, it carries the value of
the nearest later row in which T has a value. -/
theorem C1_anchor_nearest (rows : List Row) (sel : Selection) (T : Team) (p : String)
    (hl : List Row) (hmem : (p, hl) ∈ overlaysForTeam rows sel T)
    (hU : DatesNodup rows) (hS : RowsAscend rows)
    (hcat : rows.any (fun r => r.date = p) = true)
    (hnoval : ∀ r ∈ rows, r.date = p → getRow r T = none) :
    (∀ j : ℕ, ∀ a : ℚ, j < rows.findIdx (fun r => r.date = p) →
      valA rows j T = some a →
      (∀ k, j < k → k < rows.findIdx (fun r => r.date = p) → valA rows k T = none) →
      valA hl (rows.findIdx (fun r => r.date = p)) T = some a) ∧
    ((∀ k, k < rows.findIdx (fun r => r.date = p) → valA rows k T = none) →
      ∀ j : ℕ, ∀ a : ℚ, rows.findIdx (fun r => r.date = p) < j →
      valA rows j T = some a →
      (∀ k, rows.findIdx (fun r => r.date = p) < k → k < j → valA rows k T = none) →
      valA hl (rows.findIdx (fun r => r.date = p)) T = some a) := by
  obtain ⟨hp, rfl⟩ := mem_overlaysForTeam.mp hmem
  obtain ⟨r, hr, hrp⟩ := findIdx_getElem?_found rows hcat
  have hrp₂ : r.date = p := of_decide_eq_true hrp
  have hrnone : getRow r T = none :=
    hnoval r (List.mem_iff_getElem?.mpr ⟨rows.findIdx (fun x => x.date = p), hr⟩) hrp₂
  have hval := buildHighlight_valA T p hU hr
  rw [if_pos hrp₂, if_neg (by rw [hrnone]; simp)] at hval
  have hidxlen : rows.findIdx (fun r => r.date = p) ≤ rows.length :=
    le_of_lt (findIdx_lt_of_any hcat)
  constructor
  · intro j a hj hvj hbet
    rw [hval]
    exact resolvedAnchor_backward hidxlen hj hvj hbet
  · intro hback j a hj hvj hbet
    rw [hval]
    exact resolvedAnchor_forward hback hj hvj hbet

theorem C1_witness : valA (buildHighlight anchorRows "T" "2") 1 "T" = some 5 := by
  have hidx : anchorRows.findIdx (fun r => r.date = "2") = 1 := by decide
  have h := (C1_anchor_nearest anchorRows anchorSel "T" "2"
      (buildHighlight anchorRows "T" "2") (by decide)
      (by unfold DatesNodup; decide) (by unfold RowsAscend; decide)
      (by decide) (by decide)).1 0 5
  rw [hidx] at h
  exact h (by decide) (by decide) (fun k hk₁ hk₂ => absurd hk₁ (by omega))

/-- C4: for each (team, period) pair requiring emphasis the builder makes
one overlay whose period axis is exactly that of the reconciled rows, with
every value absent except at the target period, where it carries the real
value when present and the resolved anchor value otherwise; one
independent overlay is produced per selected period, keyed in selection
order. -/
theorem C4_overlay_shape (rows : List Row) (sel : Selection) (team : Team)
    (hU : DatesNodup rows) :
    ((overlaysForTeam rows sel team).map Prod.fst = yearsForTeam sel team) ∧
    (∀ p : String, ∀ hl : List Row, (p, hl) ∈ overlaysForTeam rows sel team →
      hl.map Row.date = rows.map Row.date ∧
      (∀ r ∈ hl, r.date ≠ p → getRow r team = none) ∧
      (∀ i : ℕ, ∀ r : Row, rows[i]? = some r → r.date = p →
        ((getRow r team).isSome → valA hl i team = getRow r team) ∧
        (getRow r team = none →
          valA hl i team = resolvedAnchor rows team
            (rows.findIdx (fun x => x.date = p))))) := by
  refine ⟨overlaysForTeam_keys rows sel team, ?_⟩
  intro p hl hmem
  obtain ⟨hp, rfl⟩ := mem_overlaysForTeam.mp hmem
  refine ⟨buildHighlight_map_date rows team p, buildHighlight_off_target, ?_⟩
  intro i r hi hrp
  have hval := buildHighlight_valA team p hU hi
  rw [if_pos hrp] at hval
  constructor
  · intro hs
    rw [hval, if_pos hs]
  · intro hn
    rw [hval, if_neg (by rw [hn]; simp)]

theorem C4_witness :
    (buildHighlight (reconcile (aggregate exObs) exSel) "A" "2023").map Row.date =
      (reconcile (aggregate exObs) exSel).map Row.date := by
  exact ((C4_overlay_shape (reconcile (aggregate exObs) exSel) exSel "A"
    (by unfold DatesNodup; decide)).2 "2023" _ (by decide)).1

/-- C8: a team with no value in any row still gets one overlay per
selected period, and every point of every overlay for it carries no value
(no marker, no error). -/
theorem C8_no_value_no_point (rows : List Row) (sel : Selection) (T : Team)
    (hno : ∀ r ∈ rows, getRow r T = none) :
    ((overlaysForTeam rows sel T).map Prod.fst = yearsForTeam sel T) ∧
    (∀ p : String, ∀ hl : List Row, (p, hl) ∈ overlaysForTeam rows sel T →
      ∀ r ∈ hl, getRow r T = none) := by
  refine ⟨overlaysForTeam_keys rows sel T, ?_⟩
  intro p hl hmem
  obtain ⟨hp, rfl⟩ := mem_overlaysForTeam.mp hmem
  exact buildHighlight_getRow_none hno

theorem C8_witness :
    (overlaysForTeam anchorRows emptyTeamSel "U").map Prod.fst = ["2"] ∧
    getRow { date := "2", ratings := [("U", (none : Option ℚ))] } "U" = none := by
  have h := C8_no_value_no_point anchorRows emptyTeamSel "U" (by decide)
  constructor
  · rw [h.1]
    decide
  · exact h.2 "2" (buildHighlight anchorRows "U" "2") (by decide)
      { date := "2", ratings := [("U", (none : Option ℚ))] } (by decide)

/-- C9: a non-null per-team highlight entry determines a team's highlight
periods exactly, and the global highlight period is ignored for that team
(changing it does not change the team's periods); the global period
applies only to teams without a non-null per-team entry. -/
theorem C9_per_team_overrides_global (sel : Selection) (T : Team) :
    (∀ ys : List String, (lookupEntry sel.selectedYearsByTeam T).join = some ys →
      yearsForTeam sel T = ys ∧
      (∀ g : Option String, yearsForTeam { sel with selectedYear := g } T = ys)) ∧
    ((lookupEntry sel.selectedYearsByTeam T).join = none →
      yearsForTeam sel T =
        (match sel.selectedYear with
         | some y => [y]
         | none => [])) := by
  constructor
  · intro ys hys
    constructor
    · unfold yearsForTeam
      rw [hys]
    · intro g
      unfold yearsForTeam
      simp only [Selection_selectedYearsByTeam_mk]
      rw [hys]
  · intro h
    unfold yearsForTeam
    rw [h]

theorem C9_witness :
    yearsForTeam overrideSel "A" = ["2021", "2022"] ∧
    yearsForTeam { overrideSel with selectedYear := some "1999" } "A" = ["2021", "2022"] ∧
    yearsForTeam overrideSel "B" = ["2020"] := by
  obtain ⟨h₁, h₂⟩ := (C9_per_team_overrides_global overrideSel "A").1
    ["2021", "2022"] (by decide)
  refine ⟨h₁, h₂ (some "1999"), ?_⟩
  have h₃ := (C9_per_team_overrides_global overrideSel "B").2 (by decide)
  rw [h₃]
  decide
